import Mathlib

/-!
# Verification of the futures-rs core against its specification

A shallow embedding of the polling-based futures library. The repository's
`src/` holds the `Future` trait (its default methods `tailcall`, `boxed`,
`boxed_send` and the `IntoFuture` impls) in `src/src/lib.rs`, together with
the integration tests; the primitive-future and combinator modules (`done`,
`fuse`, `map`, `join`, `select`, chaining, the stream channel) are declared
there but their code is not in `src/`, so those operations are modelled from
the specification, as marked on each definition.

Futures are deterministic state machines here: a future implementation over a
state type `σ` is a poll function `σ → Option (σ × Poll α ε)`, where `none`
models a panic (e.g. polling a completed primitive again) and `some (s', r)`
is the mutated state together with the poll outcome. Scheduling carries no
information in a single-task deterministic run, so `poll` takes no task
argument; task-dependent operations (`schedule`) are modelled explicitly
where a claim needs them.
-/

namespace FuturesRs

/-- Outcome of one call to `poll` (the `Poll<T, E>` type re-exported from
`src/src/lib.rs`): not ready, success, or failure. -/
inductive Poll (α ε : Type) where
  | notReady : Poll α ε
  | ok (v : α) : Poll α ε
  | err (e : ε) : Poll α ε
  deriving DecidableEq, Repr

/-- Rust's `Result<T, E>`, the argument of `done` and the payload of
`IntoFuture for Result` (src/src/lib.rs lines 854-865). -/
inductive Res (α ε : Type) where
  | ok (v : α) : Res α ε
  | err (e : ε) : Res α ε
  deriving DecidableEq, Repr

/-- A future implementation over state `σ`: one poll step. `none` models a
panic; `some (s', r)` is the updated state and the poll result. -/
def PollFn (σ α ε : Type) : Type := σ → Option (σ × Poll α ε)

variable {σ σ2 α β ε : Type}

/-- State after `n` polls (`none` once a poll panics along the way). -/
def advN (p : PollFn σ α ε) : Nat → σ → Option σ
  | 0, s => some s
  | n + 1, s =>
    match p s with
    | some x => advN p n x.1
    | none => none

/-- Observable outcome of the `(n+1)`-st poll, counting from `n = 0`;
`none` when some poll up to there panics. -/
def obs (p : PollFn σ α ε) (s : σ) (n : Nat) : Option (Poll α ε) :=
  match advN p n s with
  | some s1 => (p s1).map (fun x => x.2)
  | none => none

/-- The future resolves at poll index `n` with outcome `r`: all earlier polls
return `notReady` and poll `n` returns `r`. -/
def resolvesAt (p : PollFn σ α ε) (s : σ) (n : Nat) (r : Poll α ε) : Prop :=
  (∀ k, k < n → obs p s k = some Poll.notReady) ∧ obs p s n = some r

theorem obs_zero (p : PollFn σ α ε) (s : σ) :
    obs p s 0 = (p s).map (fun x => x.2) := rfl

theorem obs_succ (p : PollFn σ α ε) (s : σ) (n : Nat) :
    obs p s (n + 1) =
      match p s with
      | some x => obs p x.1 n
      | none => none := by
  cases h : p s with
  | none => simp [obs, advN, h]
  | some x => simp [obs, advN, h]

theorem advN_add (p : PollFn σ α ε) (m n : Nat) (s : σ) :
    advN p (m + n) s = (advN p m s).bind (advN p n) := by
  induction m generalizing s with
  | zero => simp [advN]
  | succ m ih =>
    have : m + 1 + n = (m + n) + 1 := by omega
    rw [this]
    cases h : p s with
    | none => simp [advN, h]
    | some x => simp [advN, h, ih]

theorem obs_advN (p : PollFn σ α ε) (m n : Nat) (s s1 : σ)
    (h : advN p m s = some s1) : obs p s (m + n) = obs p s1 n := by
  unfold obs
  rw [advN_add, h]
  rfl

theorem obs_some (p : PollFn σ α ε) (s : σ) (n : Nat) (r : Poll α ε)
    (h : obs p s n = some r) :
    ∃ s1 x, advN p n s = some s1 ∧ p s1 = some x ∧ x.2 = r := by
  unfold obs at h
  cases ha : advN p n s with
  | none => rw [ha] at h; exact absurd h (by simp)
  | some s1 =>
    rw [ha] at h
    simp only [] at h
    cases hp : p s1 with
    | none => rw [hp] at h; exact absurd h (by simp)
    | some x =>
      rw [hp] at h
      exact ⟨s1, x, rfl, hp, by simpa using h⟩

/-- Shift a resolution across one `notReady` poll step. -/
theorem resolvesAt_succ_iff (p : PollFn σ α ε) (s : σ) (x : σ × Poll α ε)
    (hx : p s = some x) (hnr : x.2 = Poll.notReady) (n : Nat) (r : Poll α ε) :
    resolvesAt p s (n + 1) r ↔ resolvesAt p x.1 n r := by
  unfold resolvesAt
  constructor
  · rintro ⟨hpre, hend⟩
    refine ⟨fun k hk => ?_, ?_⟩
    · have := hpre (k + 1) (by omega)
      rw [obs_succ, hx] at this
      exact this
    · rw [obs_succ, hx] at hend
      exact hend
  · rintro ⟨hpre, hend⟩
    refine ⟨fun k hk => ?_, ?_⟩
    · match k with
      | 0 => rw [obs_zero, hx]; simp [hnr]
      | k + 1 =>
        rw [obs_succ, hx]
        exact hpre k (by omega)
    · rw [obs_succ, hx]
      exact hend

/-- Behavior transfer along a state simulation: if `q` on `g`-images steps
exactly like `p` does, both produce the same observations. -/
theorem obs_of_sim (p : PollFn σ α ε) (q : PollFn σ2 α ε) (g : σ → σ2)
    (hg : ∀ s, q (g s) = (p s).map (fun x => (g x.1, x.2))) (n : Nat) (s : σ) :
    obs q (g s) n = obs p s n := by
  induction n generalizing s with
  | zero =>
    rw [obs_zero, obs_zero, hg]
    cases p s <;> rfl
  | succ n ih =>
    rw [obs_succ, obs_succ, hg]
    cases p s with
    | none => rfl
    | some x => simpa using ih x.1

/-! ## The `done` primitive and `IntoFuture` for `Result` -/

/-- Modelled from the spec: the `done` primitive (module `done` is declared in
src/src/lib.rs but its code is not under `src/`): "Completes on first poll
with the given result." Polling it again after completion is a contract
violation (panic), modelled by the consumed `none` state. -/
def Done (α ε : Type) : Type := Option (Res α ε)

/-- Construct a `done` future from a result. -/
def done (r : Res α ε) : Done α ε := some r

/-- Constructor `finished(v)`: sugar for `done(Ok(v))` (spec section 4.6). -/
def finished (ε : Type) (v : α) : Done α ε := done (Res.ok v)

/-- Constructor `failed(e)`: sugar for `done(Err(e))` (spec section 4.6). -/
def failed (α : Type) (e : ε) : Done α ε := done (Res.err e)

/-- One poll of a `Done` future: deliver the stored result and consume it;
panic (`none`) if already consumed. -/
def Done.poll : PollFn (Done α ε) α ε
  | some (Res.ok v) => some (none, Poll.ok v)
  | some (Res.err e) => some (none, Poll.err e)
  | none => none

/-- The impl `IntoFuture for Result<T, E>` (src/src/lib.rs lines 854-865):
`into_future` is `done(self)`. -/
def Res.into_future (r : Res α ε) : Done α ε := done r

/-- Claim C1: for every `r : Result<T, E>`, `r.into_future()` is `done(r)`,
a future that completes on its first poll with `Ok v` when `r = Ok v` and
with `Err e` when `r = Err e`. -/
theorem claim1_result_into_future_is_done (α ε : Type) :
    (∀ r : Res α ε, Res.into_future r = done r) ∧
    (∀ v : α, Done.poll (Res.into_future (Res.ok v : Res α ε)) =
      some (none, Poll.ok v)) ∧
    (∀ e : ε, Done.poll (Res.into_future (Res.err e : Res α ε)) =
      some (none, Poll.err e)) :=
  ⟨fun _ => rfl, fun _ => rfl, fun _ => rfl⟩

/-! ## Default `tailcall` and `boxed` -/

/-- A type-erased future, modelling the trait object
`Box<Future<Item=α, Error=ε>>`: a state type with its poll function and
current state. -/
structure BoxFuture (α ε : Type) : Type 1 where
  stTy : Type
  pollFn : PollFn stTy α ε
  state : stTy

/-- The default `tailcall` implementation from src/src/lib.rs lines 388-391:
it performs no work and returns `None`, leaving the future itself to keep
representing the computation. -/
def Future.tailcall_default (α ε : Type) (s : σ) : σ × Option (BoxFuture α ε) :=
  (s, none)

/-- Claim C9: the default `tailcall` returns `None` at every call, leaves the
state unchanged, and is therefore idempotent. -/
theorem claim9_tailcall_default_none (σ α ε : Type) (s : σ) :
    Future.tailcall_default α ε s = (s, none) ∧
    Future.tailcall_default α ε (Future.tailcall_default α ε s).1 =
      Future.tailcall_default α ε s :=
  ⟨rfl, rfl⟩

/-- The full operation set of a future where a claim needs more than `poll`:
`schedule` mutates the state and the task, `tailcall` may return a
replacement boxed future. -/
structure FutureOps (σ τ α ε : Type) : Type 1 where
  poll : PollFn σ α ε
  schedule : σ → τ → σ × τ
  tailcall : σ → σ × Option (BoxFuture α ε)

/-- The box wrapper produced by `boxed`: a plain wrapper around the inner
future's state (`Box::new(self)`, src/src/lib.rs lines 405-409). -/
structure Boxed (σ : Type) : Type where
  inner : σ

/-- Method `Future::boxed` (src/src/lib.rs lines 405-409): wrap in a box. -/
def Future.boxed (s : σ) : Boxed σ := ⟨s⟩

/-- Method `Future::boxed_send` (src/src/lib.rs lines 423-427): same wrapping. -/
def Future.boxed_send (s : σ) : Boxed σ := ⟨s⟩

/-- Modelled from the spec: `impl Future for Box<F>` (module `impls` is
declared in src/src/lib.rs but its code is not under `src/`); the box is a
thin adaptor that forwards `poll`, `schedule` and `tailcall` to the inner
future unchanged. -/
def Boxed.ops {τ : Type} (F : FutureOps σ τ α ε) : FutureOps (Boxed σ) τ α ε where
  poll := fun b => (F.poll b.inner).map (fun x => (⟨x.1⟩, x.2))
  schedule := fun b t => ((⟨(F.schedule b.inner t).1⟩ : Boxed σ), (F.schedule b.inner t).2)
  tailcall := fun b => ((⟨(F.tailcall b.inner).1⟩ : Boxed σ), (F.tailcall b.inner).2)

/-- Claim C10: `boxed` (and `boxed_send`) wrap a future without altering its
behavior: every poll observation, every `schedule` effect and every
`tailcall` result of the boxed future equals that of the inner future in the
same state. -/
theorem claim10_boxed_transparent (σ τ α ε : Type) (F : FutureOps σ τ α ε) (s : σ) :
    Future.boxed_send s = Future.boxed s ∧
    (∀ n, obs (Boxed.ops F).poll (Future.boxed s) n = obs F.poll s n) ∧
    (∀ t, (Boxed.ops F).schedule (Future.boxed s) t =
      (Future.boxed (F.schedule s t).1, (F.schedule s t).2)) ∧
    (Boxed.ops F).tailcall (Future.boxed s) =
      (Future.boxed (F.tailcall s).1, (F.tailcall s).2) := by
  refine ⟨rfl, fun n => ?_, fun t => rfl, rfl⟩
  exact obs_of_sim F.poll (Boxed.ops F).poll (fun s => Future.boxed s)
    (fun s => rfl) n s

/-! ## The stream channel -/

/-- Modelled from the spec: the capacity-1 stream `channel` (module `stream`
is declared in src/src/lib.rs but its code is not under `src/`). The
receiver-visible state: the at-most-one pending message and whether the
sender is still alive. -/
structure ChannelState (α ε : Type) where
  pending : Option (Res α ε)
  senderAlive : Bool
  deriving DecidableEq, Repr

/-- Constructor `channel()`: creates an empty channel with a live sender. -/
def channel (α ε : Type) : ChannelState α ε := ⟨none, true⟩

/-- Dropping the `Sender` half marks the sender gone. -/
def dropSender (c : ChannelState α ε) : ChannelState α ε :=
  { c with senderAlive := false }

/-- Modelled from the spec: polling the `Receiver` stream: a pending `Ok v`
yields the item, a pending `Err e` yields the error, no pending value blocks
(`notReady`) while the sender is alive and ends the stream (`Poll.ok none`)
once the sender is gone. -/
def Receiver.poll : PollFn (ChannelState α ε) (Option α) ε
  | ⟨some (Res.ok v), alive⟩ => some (⟨none, alive⟩, Poll.ok (some v))
  | ⟨some (Res.err e), alive⟩ => some (⟨none, alive⟩, Poll.err e)
  | ⟨none, true⟩ => some (⟨none, true⟩, Poll.notReady)
  | ⟨none, false⟩ => some (⟨none, false⟩, Poll.ok none)

/-- Claim C8: after the sender of a fresh channel is dropped with no pending
value, every poll of the receiver yields end-of-stream `Ok(None)` — it
neither blocks (`notReady`) nor errors nor panics. -/
theorem claim8_drop_sender_end_of_stream (α ε : Type) :
    Receiver.poll (dropSender (channel α ε)) =
      some (dropSender (channel α ε), Poll.ok none) ∧
    ∀ n, obs Receiver.poll (dropSender (channel α ε)) n = some (Poll.ok none) := by
  refine ⟨rfl, fun n => ?_⟩
  induction n with
  | zero => rfl
  | succ n ih =>
    rw [obs_succ]
    exact ih

/-! ## The `fuse` combinator -/

/-- Modelled from the spec: the `fuse` combinator state (module `fuse` is
declared in src/src/lib.rs but its code is not under `src/`): `some` holds
the still-running child; `none` means the child has completed and been
forgotten. -/
def Fuse (σ : Type) : Type := Option σ

/-- Method `Future::fuse` (src/src/lib.rs lines 792-797): wrap the child. -/
def fuse (s : σ) : Fuse σ := some s

/-- Modelled from the spec: polling a fused future: forward the child's poll
while it runs; on a completed result forget the child and deliver the result;
once the child is gone, report `notReady` forever without panicking. -/
def Fuse.poll (p : PollFn σ α ε) : PollFn (Fuse σ) α ε
  | some s =>
    match p s with
    | none => none
    | some (s', Poll.notReady) => some (some s', Poll.notReady)
    | some (_, Poll.ok v) => some (none, Poll.ok v)
    | some (_, Poll.err e) => some (none, Poll.err e)
  | none => some (none, Poll.notReady)

theorem Fuse.advN_none (p : PollFn σ α ε) (m : Nat) :
    advN (Fuse.poll p) m none = some none := by
  induction m with
  | zero => rfl
  | succ m ih => simpa [advN, Fuse.poll] using ih

theorem Fuse.obs_none (p : PollFn σ α ε) (m : Nat) :
    obs (Fuse.poll p) none m = some Poll.notReady := by
  unfold obs
  rw [Fuse.advN_none]
  rfl

theorem Fuse.resolves (p : PollFn σ α ε) (s : σ) (n : Nat) (r : Poll α ε)
    (hr : r ≠ Poll.notReady) (h : resolvesAt p s n r) :
    resolvesAt (Fuse.poll p) (fuse s) n r ∧
      advN (Fuse.poll p) (n + 1) (fuse s) = some none := by
  induction n generalizing s with
  | zero =>
    obtain ⟨s1, x, ha, hp, hx⟩ := obs_some p s 0 r h.2
    have ha' : (some s : Option σ) = some s1 := ha
    obtain rfl := Option.some.inj ha'
    obtain ⟨s2, r2⟩ := x
    simp only [] at hx
    subst hx
    refine ⟨⟨fun k hk => absurd hk (by omega), ?_⟩, ?_⟩ <;>
      cases r2 <;> simp [obs, advN, fuse, Fuse.poll, hp] at hr ⊢
  | succ n ih =>
    have h0 : obs p s 0 = some Poll.notReady := h.1 0 (by omega)
    obtain ⟨s1, x, ha, hp, hx⟩ := obs_some p s 0 Poll.notReady h0
    have ha' : (some s : Option σ) = some s1 := ha
    obtain rfl := Option.some.inj ha'
    obtain ⟨s2, r2⟩ := x
    simp only [] at hx
    subst hx
    have htail : resolvesAt p s2 n r :=
      (resolvesAt_succ_iff p s ⟨s2, Poll.notReady⟩ hp rfl n r).mp h
    have hfstep : Fuse.poll p (fuse s) = some (some s2, Poll.notReady) := by
      simp [fuse, Fuse.poll, hp]
    obtain ⟨ihres, ihadv⟩ := ih s2 htail
    constructor
    · exact (resolvesAt_succ_iff (Fuse.poll p) (fuse s)
        ⟨some s2, Poll.notReady⟩ hfstep rfl n r).mpr ihres
    · show advN (Fuse.poll p) (n + 1 + 1) (fuse s) = some none
      rw [advN, hfstep]
      exact ihadv

/-- Claim C2: if a future resolves (completes with `Ok` or `Err`) at poll
`n`, then its `fuse` wrapper, polled repeatedly, returns that completion
exactly once — at poll `n`, after the same `notReady` prefix — and every
later poll returns `notReady`, never panicking. -/
theorem claim2_fuse_completion_once (p : PollFn σ α ε) (s : σ) (n : Nat)
    (r : Poll α ε) (hr : r ≠ Poll.notReady) (h : resolvesAt p s n r) :
    resolvesAt (Fuse.poll p) (fuse s) n r ∧
      ∀ m, obs (Fuse.poll p) (fuse s) (n + 1 + m) = some Poll.notReady := by
  obtain ⟨hres, hadv⟩ := Fuse.resolves p s n r hr h
  exact ⟨hres, fun m => by
    rw [obs_advN (Fuse.poll p) (n + 1) m (fuse s) none hadv]
    exact Fuse.obs_none p m⟩

theorem claim2_fuse_witness :
    ((Poll.ok 3 : Poll Nat Nat) ≠ Poll.notReady) ∧
    resolvesAt (Done.poll : PollFn (Done Nat Nat) Nat Nat)
      (done (Res.ok 3)) 0 (Poll.ok 3) ∧
    (resolvesAt (Fuse.poll Done.poll) (fuse (done (Res.ok 3) : Done Nat Nat))
        0 (Poll.ok 3) ∧
      ∀ m, obs (Fuse.poll Done.poll) (fuse (done (Res.ok 3) : Done Nat Nat))
        (0 + 1 + m) = some Poll.notReady) :=
  ⟨by decide, ⟨by decide, by decide⟩,
    claim2_fuse_completion_once Done.poll (done (Res.ok 3)) 0 (Poll.ok 3)
      (by decide) ⟨by decide, by decide⟩⟩

/-! ## The `map` combinator -/

/-- Modelled from the spec: the `map` combinator state (module `map` is
declared in src/src/lib.rs but its code is not under `src/`): the child
future together with whether the mapping closure has already been consumed
by a success. -/
structure MapState (σ : Type) where
  future : σ
  used : Bool

/-- Method `Future::map` (src/src/lib.rs lines 452-458): wrap the child with an
unconsumed closure. -/
def map (s : σ) : MapState σ := ⟨s, false⟩

/-- Modelled from the spec: polling `map`: poll the child; `Ok v` becomes
`Ok (f v)` and consumes `f` (a second success would panic); `Err` and
`notReady` are forwarded unchanged. -/
def Map.poll (p : PollFn σ α ε) (f : α → β) : PollFn (MapState σ) β ε
  | ⟨s, used⟩ =>
    match p s with
    | none => none
    | some (s', Poll.notReady) => some (⟨s', used⟩, Poll.notReady)
    | some (s', Poll.err e) => some (⟨s', used⟩, Poll.err e)
    | some (s', Poll.ok v) =>
      if used then none else some (⟨s', true⟩, Poll.ok (f v))

/-- Claim C6: mapping the identity function changes nothing: whenever a
future resolves with outcome `r` after a `notReady` prefix, `map id` of it
resolves identically — `notReady` polls map to `notReady`, `Ok v` to `Ok v`,
and `Err e` to `Err e`. -/
theorem claim6_map_identity (p : PollFn σ α ε) (s : σ) (n : Nat)
    (r : Poll α ε) (h : resolvesAt p s n r) :
    resolvesAt (Map.poll p (fun v => v)) (map s) n r := by
  induction n generalizing s with
  | zero =>
    obtain ⟨s1, x, ha, hp, hx⟩ := obs_some p s 0 r h.2
    have ha' : (some s : Option σ) = some s1 := ha
    obtain rfl := Option.some.inj ha'
    obtain ⟨s2, r2⟩ := x
    simp only [] at hx
    subst hx
    refine ⟨fun k hk => absurd hk (by omega), ?_⟩
    cases r2 <;> simp [obs, advN, map, Map.poll, hp]
  | succ n ih =>
    have h0 : obs p s 0 = some Poll.notReady := h.1 0 (by omega)
    obtain ⟨s1, x, ha, hp, hx⟩ := obs_some p s 0 Poll.notReady h0
    have ha' : (some s : Option σ) = some s1 := ha
    obtain rfl := Option.some.inj ha'
    obtain ⟨s2, r2⟩ := x
    simp only [] at hx
    subst hx
    have htail : resolvesAt p s2 n r :=
      (resolvesAt_succ_iff p s ⟨s2, Poll.notReady⟩ hp rfl n r).mp h
    have hstep : Map.poll p (fun v => v) (map s) =
        some (⟨s2, false⟩, Poll.notReady) := by
      simp [map, Map.poll, hp]
    exact (resolvesAt_succ_iff (Map.poll p (fun v => v)) (map s)
      ⟨⟨s2, false⟩, Poll.notReady⟩ hstep rfl n r).mpr (ih s2 htail)

theorem claim6_map_identity_witness :
    resolvesAt (Done.poll : PollFn (Done Nat Nat) Nat Nat)
      (done (Res.err 5)) 0 (Poll.err 5) ∧
    resolvesAt (Map.poll Done.poll (fun v => v))
      (map (done (Res.err 5) : Done Nat Nat)) 0 (Poll.err 5) :=
  ⟨⟨by decide, by decide⟩,
    claim6_map_identity Done.poll (done (Res.err 5)) 0 (Poll.err 5)
      ⟨by decide, by decide⟩⟩

/-! ## The chain machinery: `and_then`, `then`, `flatten` -/

/-- Modelled from the spec: the internal `chain` state shared by
then/and_then/flatten (module `chain` is declared in src/src/lib.rs but its
code is not under `src/`): polling the first future, polling the stored
second future, or completed (any further poll panics). -/
inductive ChainState (σa σb : Type) where
  | first (s : σa) : ChainState σa σb
  | second (s : σb) : ChainState σa σb
  | doneSt : ChainState σa σb

/-- Modelled from the spec: entering the second future of a chain: it is
polled immediately within the same call; `notReady` parks it as `second`, a
completion finishes the chain. -/
def Chain.stepSecond {σa σb β ε2 : Type} (pb : PollFn σb β ε2) (sb : σb) :
    Option (ChainState σa σb × Poll β ε2) :=
  match pb sb with
  | none => none
  | some (sb', Poll.notReady) => some (ChainState.second sb', Poll.notReady)
  | some (_, Poll.ok w) => some (ChainState.doneSt, Poll.ok w)
  | some (_, Poll.err e) => some (ChainState.doneSt, Poll.err e)

/-- Modelled from the spec: the `and_then` combinator (module `and_then` is
declared in src/src/lib.rs but its code is not under `src/`): on success of
the first future apply `f` to obtain the second and poll it at once; on
error complete with that error immediately. -/
def AndThen.poll {σa σb α β ε : Type} (pa : PollFn σa α ε) (f : α → σb)
    (pb : PollFn σb β ε) : PollFn (ChainState σa σb) β ε
  | ChainState.first s =>
    match pa s with
    | none => none
    | some (s', Poll.notReady) => some (ChainState.first s', Poll.notReady)
    | some (_, Poll.ok v) => Chain.stepSecond pb (f v)
    | some (_, Poll.err e) => some (ChainState.doneSt, Poll.err e)
  | ChainState.second s => Chain.stepSecond pb s
  | ChainState.doneSt => none

/-- Method `Future::and_then` (src/src/lib.rs lines 567-573): start in the
first-phase state. -/
def and_then {σa σb : Type} (s : σa) : ChainState σa σb := ChainState.first s

theorem obs_congr_start (q : PollFn σ α ε) (s1 s2 : σ) (hq : q s1 = q s2)
    (n : Nat) : obs q s1 n = obs q s2 n := by
  cases n with
  | zero => rw [obs_zero, obs_zero, hq]
  | succ n => rw [obs_succ, obs_succ, hq]

theorem AndThen.resolves_second {σa σb α β ε : Type} (pa : PollFn σa α ε)
    (f : α → σb) (pb : PollFn σb β ε) (n : Nat) (sb : σb) (r : Poll β ε)
    (h : resolvesAt pb sb n r) :
    resolvesAt (AndThen.poll pa f pb)
      (ChainState.second sb : ChainState σa σb) n r := by
  induction n generalizing sb with
  | zero =>
    obtain ⟨s1, x, ha, hp, hx⟩ := obs_some pb sb 0 r h.2
    have ha' : (some sb : Option σb) = some s1 := ha
    obtain rfl := Option.some.inj ha'
    obtain ⟨s2, r2⟩ := x
    simp only [] at hx
    subst hx
    refine ⟨fun k hk => absurd hk (by omega), ?_⟩
    cases r2 <;> simp [obs, advN, AndThen.poll, Chain.stepSecond, hp]
  | succ n ih =>
    have h0 : obs pb sb 0 = some Poll.notReady := h.1 0 (by omega)
    obtain ⟨s1, x, ha, hp, hx⟩ := obs_some pb sb 0 Poll.notReady h0
    have ha' : (some sb : Option σb) = some s1 := ha
    obtain rfl := Option.some.inj ha'
    obtain ⟨s2, r2⟩ := x
    simp only [] at hx
    subst hx
    have htail : resolvesAt pb s2 n r :=
      (resolvesAt_succ_iff pb sb ⟨s2, Poll.notReady⟩ hp rfl n r).mp h
    have hstep : AndThen.poll pa f pb
        (ChainState.second sb : ChainState σa σb) =
        some (ChainState.second s2, Poll.notReady) := by
      simp [AndThen.poll, Chain.stepSecond, hp]
    exact (resolvesAt_succ_iff (AndThen.poll pa f pb) (ChainState.second sb)
      ⟨ChainState.second s2, Poll.notReady⟩ hstep rfl n r).mpr (ih s2 htail)

/-- Claim C7 (monad left identity): for every value `v` and continuation `g`,
`finished(v).and_then(g)` resolves exactly as `g(v).into_future()` does:
whenever `g v` resolves with outcome `r` at poll `n` (after a `notReady`
prefix), so does the composite, under the same sequence of polls. -/
theorem claim7_and_then_left_identity {σb α β ε : Type} (g : α → σb) (v : α)
    (pb : PollFn σb β ε) (n : Nat) (r : Poll β ε)
    (h : resolvesAt pb (g v) n r) :
    resolvesAt (AndThen.poll (Done.poll : PollFn (Done α ε) α ε) g pb)
      (and_then (finished ε v)) n r := by
  have hsame : AndThen.poll (Done.poll : PollFn (Done α ε) α ε) g pb
      (and_then (finished ε v)) =
      AndThen.poll (Done.poll : PollFn (Done α ε) α ε) g pb
      (ChainState.second (g v)) := rfl
  have hsec :=
    @AndThen.resolves_second (Done α ε) σb α β ε Done.poll g pb n (g v) r h
  refine ⟨fun k hk => ?_, ?_⟩
  · rw [obs_congr_start _ _ _ hsame k]
    exact hsec.1 k hk
  · rw [obs_congr_start _ _ _ hsame n]
    exact hsec.2

theorem claim7_and_then_left_identity_witness :
    resolvesAt (Done.poll : PollFn (Done Nat Nat) Nat Nat)
      ((fun k => done (Res.ok (k + 1))) 2) 0 (Poll.ok 3) ∧
    resolvesAt
      (AndThen.poll (Done.poll : PollFn (Done Nat Nat) Nat Nat)
        (fun k => done (Res.ok (k + 1))) Done.poll)
      (and_then (finished Nat 2)) 0 (Poll.ok 3) :=
  ⟨⟨by decide, by decide⟩,
    claim7_and_then_left_identity (fun k => done (Res.ok (k + 1))) 2
      Done.poll 0 (Poll.ok 3) ⟨by decide, by decide⟩⟩

/-- Modelled from the spec: the `then` combinator (module `then` is declared
in src/src/lib.rs but its code is not under `src/`): once the first future
completes — with success or failure — apply `f` to the whole result to
obtain the second future and poll it at once. -/
def Then.poll {σa σb α β ε ε2 : Type} (pa : PollFn σa α ε) (f : Res α ε → σb)
    (pb : PollFn σb β ε2) : PollFn (ChainState σa σb) β ε2
  | ChainState.first s =>
    match pa s with
    | none => none
    | some (s', Poll.notReady) => some (ChainState.first s', Poll.notReady)
    | some (_, Poll.ok v) => Chain.stepSecond pb (f (Res.ok v))
    | some (_, Poll.err e) => Chain.stepSecond pb (f (Res.err e))
  | ChainState.second s => Chain.stepSecond pb s
  | ChainState.doneSt => none

/-- Modelled from the spec: the `flatten` combinator (module `flatten` is
declared in src/src/lib.rs but its code is not under `src/`): its state. -/
inductive FlattenState (σo σi : Type) where
  | first (s : σo) : FlattenState σo σi
  | second (s : σi) : FlattenState σo σi
  | doneSt : FlattenState σo σi

/-- Modelled from the spec: polling `flatten`: poll the outer future; a
successful inner future is polled at once; an outer error is embedded
(`From::from`) and returned at once; afterwards the inner future is polled. -/
def Flatten.poll {σo σi γ ε ε2 : Type} (po : PollFn σo σi ε)
    (pin : PollFn σi γ ε2) (emb : ε → ε2) : PollFn (FlattenState σo σi) γ ε2
  | FlattenState.first s =>
    match po s with
    | none => none
    | some (s', Poll.notReady) => some (FlattenState.first s', Poll.notReady)
    | some (_, Poll.ok si) =>
      match pin si with
      | none => none
      | some (si', Poll.notReady) => some (FlattenState.second si', Poll.notReady)
      | some (_, Poll.ok w) => some (FlattenState.doneSt, Poll.ok w)
      | some (_, Poll.err e) => some (FlattenState.doneSt, Poll.err e)
    | some (_, Poll.err e) => some (FlattenState.doneSt, Poll.err (emb e))
  | FlattenState.second s =>
    match pin s with
    | none => none
    | some (si', Poll.notReady) => some (FlattenState.second si', Poll.notReady)
    | some (_, Poll.ok w) => some (FlattenState.doneSt, Poll.ok w)
    | some (_, Poll.err e) => some (FlattenState.doneSt, Poll.err e)
  | FlattenState.doneSt => none

/-- The second future of `then(|r| r)` when the first future's item is itself
a future: either that inner future, or (for an outer error) the immediate
`done(Err ..)` produced by `Result`'s `IntoFuture`. -/
def FlatSecond (σi γ ε2 : Type) : Type := σi ⊕ Done γ ε2

/-- Polling the `then(|r| r)` second future: forward to the inner future or
to the `done` error. -/
def FlatSecond.poll {σi γ ε2 : Type} (pin : PollFn σi γ ε2) :
    PollFn (FlatSecond σi γ ε2) γ ε2
  | Sum.inl s => (pin s).map (fun x => (Sum.inl x.1, x.2))
  | Sum.inr d => (Done.poll d).map (fun x => (Sum.inr x.1, x.2))

/-- The continuation `|r| r` of `then` as used by `flatten`: a successful
outer result is the inner future itself; an outer error converts through
`IntoFuture` into `done(Err (emb e))`. -/
def flattenAsThen {σi γ ε ε2 : Type} (emb : ε → ε2) :
    Res σi ε → FlatSecond σi γ ε2
  | Res.ok si => Sum.inl si
  | Res.err e => Sum.inr (done (Res.err (emb e)))

/-- State simulation sending a `flatten` state to the matching
`then(|r| r)` state. -/
def flat2then {σo σi γ ε2 : Type} :
    FlattenState σo σi → ChainState σo (FlatSecond σi γ ε2)
  | FlattenState.first s => ChainState.first s
  | FlattenState.second si => ChainState.second (Sum.inl si)
  | FlattenState.doneSt => ChainState.doneSt

theorem flatten_then_step {σo σi γ ε ε2 : Type} (po : PollFn σo σi ε)
    (pin : PollFn σi γ ε2) (emb : ε → ε2) (fs : FlattenState σo σi) :
    Then.poll po (flattenAsThen emb) (FlatSecond.poll pin) (flat2then fs) =
      (Flatten.poll po pin emb fs).map (fun x => (flat2then x.1, x.2)) := by
  cases fs with
  | doneSt => rfl
  | second si =>
    cases h : pin si with
    | none => simp [Then.poll, Flatten.poll, Chain.stepSecond, FlatSecond.poll,
        flat2then, h]
    | some y =>
      obtain ⟨si', r⟩ := y
      cases r <;> simp [Then.poll, Flatten.poll, Chain.stepSecond,
        FlatSecond.poll, flat2then, h]
  | first s =>
    cases h : po s with
    | none => simp [Then.poll, Flatten.poll, flat2then, h]
    | some y =>
      obtain ⟨s', r⟩ := y
      cases r with
      | notReady => simp [Then.poll, Flatten.poll, flat2then, h]
      | err e =>
        simp [Then.poll, Flatten.poll, flat2then, flattenAsThen,
          Chain.stepSecond, FlatSecond.poll, Done.poll, done, h]
      | ok si =>
        cases h2 : pin si with
        | none => simp [Then.poll, Flatten.poll, flat2then, flattenAsThen,
            Chain.stepSecond, FlatSecond.poll, h, h2]
        | some z =>
          obtain ⟨si', r2⟩ := z
          cases r2 <;> simp [Then.poll, Flatten.poll, flat2then, flattenAsThen,
            Chain.stepSecond, FlatSecond.poll, h, h2]

theorem obs_stuck (q : PollFn σ α ε) (sd : σ) (hq : q sd = none) (m : Nat) :
    obs q sd m = none := by
  cases m with
  | zero => rw [obs_zero, hq]; rfl
  | succ m => rw [obs_succ, hq]

/-- Claim C5: `flatten` is observationally equivalent to `then(|r| r)` — on
every state and at every poll index the two produce the same observation —
and in particular `finished(finished(v)).flatten()` behaves exactly as
`finished(v)` at every poll. -/
theorem claim5_flatten_equiv_then :
    (∀ (σo σi γ ε ε2 : Type) (po : PollFn σo σi ε) (pin : PollFn σi γ ε2)
      (emb : ε → ε2) (s : σo) (n : Nat),
      obs (Flatten.poll po pin emb) (FlattenState.first s) n =
        obs (Then.poll po (flattenAsThen emb) (FlatSecond.poll pin))
          (ChainState.first s) n) ∧
    (∀ (γ ε : Type) (v : γ) (n : Nat),
      obs (Flatten.poll (Done.poll : PollFn (Done (Done γ ε) ε) (Done γ ε) ε)
          Done.poll (fun e => e))
        (FlattenState.first (finished ε (finished ε v))) n =
        obs Done.poll (finished ε v) n) := by
  constructor
  · intro σo σi γ ε ε2 po pin emb s n
    have := obs_of_sim (Flatten.poll po pin emb)
      (Then.poll po (flattenAsThen emb) (FlatSecond.poll pin)) flat2then
      (flatten_then_step po pin emb) n (FlattenState.first s)
    exact this.symm
  · intro γ ε v n
    cases n with
    | zero => rfl
    | succ n =>
      have h1 : Flatten.poll
          (Done.poll : PollFn (Done (Done γ ε) ε) (Done γ ε) ε) Done.poll
          (fun e => e) (FlattenState.first (finished ε (finished ε v))) =
          some (FlattenState.doneSt, Poll.ok v) := rfl
      have h2 : Done.poll (finished ε v) = some ((none : Done γ ε), Poll.ok v) :=
        rfl
      rw [obs_succ, obs_succ, h1, h2]
      exact (obs_stuck _ _ rfl n).trans (obs_stuck _ _ rfl n).symm

/-! ## The `select` combinator -/

/-- Modelled from the spec: the `SelectNext` future handed back by `select`
(module `select` is declared in src/src/lib.rs but its code is not under
`src/`): re-exposes whichever child is still running. -/
inductive SelectNext (σa σb : Type) where
  | left (s : σa) : SelectNext σa σb
  | right (s : σb) : SelectNext σa σb

/-- Polling a `SelectNext`: forward to the remaining child. -/
def SelectNext.poll {σa σb α ε : Type} (pa : PollFn σa α ε)
    (pb : PollFn σb α ε) : PollFn (SelectNext σa σb) α ε
  | SelectNext.left s => (pa s).map (fun x => (SelectNext.left x.1, x.2))
  | SelectNext.right s => (pb s).map (fun x => (SelectNext.right x.1, x.2))

/-- Modelled from the spec: the state of `select`: both children running, or
completed (a further poll panics). -/
inductive SelectState (σa σb : Type) where
  | running (sa : σa) (sb : σb) : SelectState σa σb
  | doneSt : SelectState σa σb

/-- Pair a child's completion with the `SelectNext` for its sibling:
`Ok((v, next))` or `Err((e, next))`. -/
def Select.wrap {α ε ν : Type} (r : Poll α ε) (nx : ν) : Poll (α × ν) (ε × ν) :=
  match r with
  | Poll.notReady => Poll.notReady
  | Poll.ok v => Poll.ok (v, nx)
  | Poll.err e => Poll.err (e, nx)

/-- Modelled from the spec: polling `select`: the children are polled in
order `a` then `b`; the first completed child's result is delivered together
with a `SelectNext` wrapping the sibling's current state. -/
def Select.poll {σa σb α ε : Type} (pa : PollFn σa α ε) (pb : PollFn σb α ε) :
    PollFn (SelectState σa σb) (α × SelectNext σa σb) (ε × SelectNext σa σb)
  | SelectState.running sa sb =>
    match pa sa with
    | none => none
    | some (_, Poll.ok v) =>
      some (SelectState.doneSt, Poll.ok (v, SelectNext.right sb))
    | some (_, Poll.err e) =>
      some (SelectState.doneSt, Poll.err (e, SelectNext.right sb))
    | some (sa', Poll.notReady) =>
      match pb sb with
      | none => none
      | some (_, Poll.ok v) =>
        some (SelectState.doneSt, Poll.ok (v, SelectNext.left sa'))
      | some (_, Poll.err e) =>
        some (SelectState.doneSt, Poll.err (e, SelectNext.left sa'))
      | some (sb', Poll.notReady) =>
        some (SelectState.running sa' sb', Poll.notReady)
  | SelectState.doneSt => none

/-- Method `Future::select` (src/src/lib.rs lines 644-651): start with both
children running. -/
def select {σa σb : Type} (sa : σa) (sb : σb) : SelectState σa σb :=
  SelectState.running sa sb

theorem SelectNext.obs_right {σa σb α ε : Type} (pa : PollFn σa α ε)
    (pb : PollFn σb α ε) (s : σb) (m : Nat) :
    obs (SelectNext.poll pa pb) (SelectNext.right s : SelectNext σa σb) m =
      obs pb s m :=
  obs_of_sim pb (SelectNext.poll pa pb) SelectNext.right (fun _ => rfl) m s

/-- Claim C4: when `a` completes first — it resolves at poll `n` with a ready
result `ra` while `b` is still pending through the first `n` polls —
`select(a, b)` resolves at the same poll with `ra` paired with a
`SelectNext` for `b`, and polling that `SelectNext` yields exactly the
observations `b` itself would have produced from that point on. -/
theorem claim4_select_first_completion {σa σb α ε : Type} (pa : PollFn σa α ε)
    (pb : PollFn σb α ε) (sa : σa) (sb : σb) (n : Nat) (ra : Poll α ε)
    (hra : ra ≠ Poll.notReady) (ha : resolvesAt pa sa n ra)
    (hb : ∀ k, k < n → obs pb sb k = some Poll.notReady) :
    ∃ sbn, advN pb n sb = some sbn ∧
      resolvesAt (Select.poll pa pb) (select sa sb) n
        (Select.wrap ra (SelectNext.right sbn)) ∧
      ∀ m, obs (SelectNext.poll pa pb)
        (SelectNext.right sbn : SelectNext σa σb) m = obs pb sb (n + m) := by
  induction n generalizing sa sb with
  | zero =>
    obtain ⟨s1, x, haa, hp, hx⟩ := obs_some pa sa 0 ra ha.2
    have ha' : (some sa : Option σa) = some s1 := haa
    obtain rfl := Option.some.inj ha'
    obtain ⟨s2, r2⟩ := x
    simp only [] at hx
    subst hx
    refine ⟨sb, rfl, ⟨fun k hk => absurd hk (by omega), ?_⟩,
      fun m => by rw [Nat.zero_add]; exact SelectNext.obs_right pa pb sb m⟩
    cases r2 <;>
      simp [obs, advN, select, Select.poll, Select.wrap, hp] at hra ⊢
  | succ n ih =>
    have ha0 : obs pa sa 0 = some Poll.notReady := ha.1 0 (by omega)
    obtain ⟨s1, x, haa, hpa, hxa⟩ := obs_some pa sa 0 Poll.notReady ha0
    have ha' : (some sa : Option σa) = some s1 := haa
    obtain rfl := Option.some.inj ha'
    obtain ⟨sa2, ra2⟩ := x
    simp only [] at hxa
    subst hxa
    have hb0 : obs pb sb 0 = some Poll.notReady := hb 0 (by omega)
    obtain ⟨t1, y, hbb, hpb, hxb⟩ := obs_some pb sb 0 Poll.notReady hb0
    have hb' : (some sb : Option σb) = some t1 := hbb
    obtain rfl := Option.some.inj hb'
    obtain ⟨sb2, rb2⟩ := y
    simp only [] at hxb
    subst hxb
    have hstep : Select.poll pa pb (select sa sb) =
        some (select sa2 sb2, Poll.notReady) := by
      simp [select, Select.poll, hpa, hpb]
    have hatail : resolvesAt pa sa2 n ra :=
      (resolvesAt_succ_iff pa sa ⟨sa2, Poll.notReady⟩ hpa rfl n ra).mp ha
    have hbtail : ∀ k, k < n → obs pb sb2 k = some Poll.notReady := by
      intro k hk
      have := hb (k + 1) (by omega)
      rw [obs_succ, hpb] at this
      exact this
    obtain ⟨sbn, hadv, hres, hnext⟩ := ih sa2 sb2 hatail hbtail
    refine ⟨sbn, ?_, ?_, ?_⟩
    · show advN pb (n + 1) sb = some sbn
      rw [advN, hpb]
      exact hadv
    · exact (resolvesAt_succ_iff (Select.poll pa pb) (select sa sb)
        ⟨select sa2 sb2, Poll.notReady⟩ hstep rfl n _).mpr hres
    · intro m
      have : n + 1 + m = (n + m) + 1 := by omega
      rw [this, obs_succ, hpb]
      exact hnext m

theorem claim4_select_witness :
    ((Poll.ok 1 : Poll Nat Nat) ≠ Poll.notReady) ∧
    resolvesAt (Done.poll : PollFn (Done Nat Nat) Nat Nat)
      (done (Res.ok 1)) 0 (Poll.ok 1) ∧
    ∃ sbn, advN (Done.poll : PollFn (Done Nat Nat) Nat Nat) 0
        (done (Res.ok 2)) = some sbn ∧
      resolvesAt (Select.poll Done.poll Done.poll)
        (select (done (Res.ok 1) : Done Nat Nat)
          (done (Res.ok 2) : Done Nat Nat)) 0
        (Select.wrap (Poll.ok 1) (SelectNext.right sbn)) ∧
      ∀ m, obs (SelectNext.poll Done.poll Done.poll)
        (SelectNext.right sbn : SelectNext (Done Nat Nat) (Done Nat Nat)) m =
        obs Done.poll (done (Res.ok 2) : Done Nat Nat) (0 + m) :=
  ⟨by decide, ⟨by decide, by decide⟩,
    claim4_select_first_completion Done.poll Done.poll (done (Res.ok 1))
      (done (Res.ok 2)) 0 (Poll.ok 1) (by decide) ⟨by decide, by decide⟩
      (fun k hk => absurd hk (by omega))⟩

/-! ## The `join` combinator -/

/-- Modelled from the spec: one `join` child: still running with a future
state, or already completed with its value retained (the child future
consumed). -/
inductive MaybeDone (σ α : Type) where
  | notYet (s : σ) : MaybeDone σ α
  | doneV (v : α) : MaybeDone σ α

/-- Which `join` child a cancellation drop hits. -/
inductive JSide where
  | left : JSide
  | right : JSide
  deriving DecidableEq, Repr

/-- Modelled from the spec: the state of `join` (module `join` is declared in
src/src/lib.rs but its code is not under `src/`): both children tracked, or
completed (a further poll panics). -/
inductive JoinState (σa σb α β : Type) where
  | running (a : MaybeDone σa α) (b : MaybeDone σb β) : JoinState σa σb α β
  | doneSt : JoinState σa σb α β

/-- Advance one `join` child: poll it while it runs and retain a success;
keep a retained value; surface an error to the parent. -/
def MaybeDone.step (p : PollFn σ α ε) : MaybeDone σ α → Option (MaybeDone σ α ⊕ ε)
  | MaybeDone.notYet s =>
    match p s with
    | none => none
    | some (s', Poll.notReady) => some (Sum.inl (MaybeDone.notYet s'))
    | some (_, Poll.ok v) => some (Sum.inl (MaybeDone.doneV v))
    | some (_, Poll.err e) => some (Sum.inr e)
  | MaybeDone.doneV v => some (Sum.inl (MaybeDone.doneV v))

/-- Cancellation record: dropping a still-running child is one drop event for
its side; a child whose future was already consumed records none. -/
def MaybeDone.dropEv (side : JSide) : MaybeDone σ α → List JSide
  | MaybeDone.notYet _ => [side]
  | MaybeDone.doneV _ => []

/-- Modelled from the spec: one poll of `join`, instrumented with the
cancellation drops it performs: poll child `a` then child `b` while they
run and retain successes; on the first error drop the still-running sibling
and return that error; once both values are in, return the pair. -/
def Join.pollEv {σa σb α β ε : Type} (pa : PollFn σa α ε) (pb : PollFn σb β ε) :
    JoinState σa σb α β →
      Option (JoinState σa σb α β × Poll (α × β) ε × List JSide)
  | JoinState.running a b =>
    match MaybeDone.step pa a with
    | none => none
    | some (Sum.inr e) =>
      some (JoinState.doneSt, Poll.err e, MaybeDone.dropEv JSide.right b)
    | some (Sum.inl a1) =>
      match MaybeDone.step pb b with
      | none => none
      | some (Sum.inr e) =>
        some (JoinState.doneSt, Poll.err e, MaybeDone.dropEv JSide.left a1)
      | some (Sum.inl b1) =>
        match a1, b1 with
        | MaybeDone.doneV x, MaybeDone.doneV y =>
          some (JoinState.doneSt, Poll.ok (x, y), [])
        | a1, b1 => some (JoinState.running a1 b1, Poll.notReady, [])
  | JoinState.doneSt => none

/-- Polling `join`, forgetting the drop instrumentation. -/
def Join.poll {σa σb α β ε : Type} (pa : PollFn σa α ε) (pb : PollFn σb β ε) :
    PollFn (JoinState σa σb α β) (α × β) ε :=
  fun st => (Join.pollEv pa pb st).map (fun x => (x.1, x.2.1))

/-- The cancellation drops performed by the `(n+1)`-st poll of `join`. -/
def Join.events {σa σb α β ε : Type} (pa : PollFn σa α ε) (pb : PollFn σb β ε)
    (st : JoinState σa σb α β) (n : Nat) : Option (List JSide) :=
  match advN (Join.poll pa pb) n st with
  | some st1 => (Join.pollEv pa pb st1).map (fun x => x.2.2)
  | none => none

/-- Method `Future::join` (src/src/lib.rs lines 683-689): both children start
running. -/
def join {σa σb α β : Type} (sa : σa) (sb : σb) : JoinState σa σb α β :=
  JoinState.running (MaybeDone.notYet sa) (MaybeDone.notYet sb)

theorem Join.events_succ {σa σb α β ε : Type} (pa : PollFn σa α ε)
    (pb : PollFn σb β ε) (st : JoinState σa σb α β) (n : Nat) :
    Join.events pa pb st (n + 1) =
      match Join.poll pa pb st with
      | some x => Join.events pa pb x.1 n
      | none => none := by
  cases h : Join.poll pa pb st with
  | none => simp [Join.events, advN, h]
  | some x => simp [Join.events, advN, h]

theorem obs_at_of_advN (q : PollFn σ α ε) (m : Nat) (st st1 : σ)
    (hadv : advN q m st = some st1) : obs q st m = obs q st1 0 := by
  have := obs_advN q m 0 st st1 hadv
  rwa [Nat.add_zero] at this

theorem advN_snoc (q : PollFn σ α ε) (m : Nat) (st st1 : σ) (x : σ × Poll α ε)
    (hadv : advN q m st = some st1) (hq : q st1 = some x) :
    advN q (m + 1) st = some x.1 := by
  rw [advN_add q m 1 st, hadv]
  simp [advN, hq]

theorem resolvesAt_concat (q : PollFn σ α ε) (st st1 : σ) (m d : Nat)
    (r : Poll α ε) (hpre : ∀ k, k < m → obs q st k = some Poll.notReady)
    (hadv : advN q m st = some st1) (h : resolvesAt q st1 d r) :
    resolvesAt q st (m + d) r := by
  refine ⟨fun k hk => ?_, ?_⟩
  · by_cases hkm : k < m
    · exact hpre k hkm
    · have hk2 : k = m + (k - m) := by omega
      rw [hk2, obs_advN q m (k - m) st st1 hadv]
      exact h.1 (k - m) (by omega)
  · rw [obs_advN q m d st st1 hadv]
    exact h.2

/-- While both children are pending, `join` stays in its initial shape,
returns `notReady` and performs no drop. -/
theorem Join.pending {σa σb α β ε : Type} (pa : PollFn σa α ε)
    (pb : PollFn σb β ε) (n : Nat) :
    ∀ (sa : σa) (sb : σb),
      (∀ k, k < n → obs pa sa k = some Poll.notReady) →
      (∀ k, k < n → obs pb sb k = some Poll.notReady) →
      ∃ sa1 sb1, advN pa n sa = some sa1 ∧ advN pb n sb = some sb1 ∧
        advN (Join.poll pa pb) n (join sa sb) =
          some (join sa1 sb1 : JoinState σa σb α β) ∧
        ∀ k, k < n →
          obs (Join.poll pa pb) (join sa sb : JoinState σa σb α β) k =
            some Poll.notReady ∧
          Join.events pa pb (join sa sb) k = some [] := by
  induction n with
  | zero =>
    intro sa sb _ _
    exact ⟨sa, sb, rfl, rfl, rfl, fun k hk => absurd hk (by omega)⟩
  | succ n ih =>
    intro sa sb ha hb
    obtain ⟨s1, xa, haa, hpa, hxa⟩ := obs_some pa sa 0 Poll.notReady (ha 0 (by omega))
    have ha' : (some sa : Option σa) = some s1 := haa
    obtain rfl := Option.some.inj ha'
    obtain ⟨sa2, ra2⟩ := xa
    simp only [] at hxa
    subst hxa
    obtain ⟨t1, xb, hbb, hpb, hxb⟩ := obs_some pb sb 0 Poll.notReady (hb 0 (by omega))
    have hb' : (some sb : Option σb) = some t1 := hbb
    obtain rfl := Option.some.inj hb'
    obtain ⟨sb2, rb2⟩ := xb
    simp only [] at hxb
    subst hxb
    have hpEv : Join.pollEv pa pb (join sa sb : JoinState σa σb α β) =
        some (join sa2 sb2, Poll.notReady, []) := by
      simp [join, Join.pollEv, MaybeDone.step, hpa, hpb]
    have hstep : Join.poll pa pb (join sa sb : JoinState σa σb α β) =
        some (join sa2 sb2, Poll.notReady) := by
      simp [Join.poll, hpEv]
    have hatail : ∀ k, k < n → obs pa sa2 k = some Poll.notReady := by
      intro k hk
      have := ha (k + 1) (by omega)
      rwa [obs_succ, hpa] at this
    have hbtail : ∀ k, k < n → obs pb sb2 k = some Poll.notReady := by
      intro k hk
      have := hb (k + 1) (by omega)
      rwa [obs_succ, hpb] at this
    obtain ⟨sa1, sb1, hA, hB, hJ, hPre⟩ := ih sa2 sb2 hatail hbtail
    refine ⟨sa1, sb1, ?_, ?_, ?_, ?_⟩
    · rw [advN, hpa]; exact hA
    · rw [advN, hpb]; exact hB
    · show advN (Join.poll pa pb) (n + 1) (join sa sb) = _
      rw [advN, hstep]; exact hJ
    · intro k hk
      match k with
      | 0 =>
        constructor
        · rw [obs_zero, hstep]; rfl
        · simp [Join.events, advN, hpEv]
      | k + 1 =>
        have hk' : k < n := by omega
        constructor
        · rw [obs_succ, hstep]; exact (hPre k hk').1
        · rw [Join.events_succ, hstep]; exact (hPre k hk').2

/-- Once child `a` has completed with `x`, `join` just tracks `b`. -/
theorem Join.aDone {σa σb α β ε : Type} (pa : PollFn σa α ε)
    (pb : PollFn σb β ε) (x : α) (d : Nat) :
    ∀ (sb1 : σb) (y : β), resolvesAt pb sb1 d (Poll.ok y) →
      resolvesAt (Join.poll pa pb)
        (JoinState.running (MaybeDone.doneV x) (MaybeDone.notYet sb1) :
          JoinState σa σb α β) d (Poll.ok (x, y)) := by
  induction d with
  | zero =>
    intro sb1 y h
    obtain ⟨t1, xb, hbb, hpb, hxb⟩ := obs_some pb sb1 0 _ h.2
    have hb' : (some sb1 : Option σb) = some t1 := hbb
    obtain rfl := Option.some.inj hb'
    obtain ⟨sb2, rb2⟩ := xb
    simp only [] at hxb
    subst hxb
    refine ⟨fun k hk => absurd hk (by omega), ?_⟩
    rw [obs_zero]
    simp [Join.poll, Join.pollEv, MaybeDone.step, hpb]
  | succ d ih =>
    intro sb1 y h
    obtain ⟨t1, xb, hbb, hpb, hxb⟩ :=
      obs_some pb sb1 0 Poll.notReady (h.1 0 (by omega))
    have hb' : (some sb1 : Option σb) = some t1 := hbb
    obtain rfl := Option.some.inj hb'
    obtain ⟨sb2, rb2⟩ := xb
    simp only [] at hxb
    subst hxb
    have hstep : Join.poll pa pb
        (JoinState.running (MaybeDone.doneV x) (MaybeDone.notYet sb1) :
          JoinState σa σb α β) =
        some (JoinState.running (MaybeDone.doneV x) (MaybeDone.notYet sb2),
          Poll.notReady) := by
      simp [Join.poll, Join.pollEv, MaybeDone.step, hpb]
    have htail : resolvesAt pb sb2 d (Poll.ok y) :=
      (resolvesAt_succ_iff pb sb1 ⟨sb2, Poll.notReady⟩ hpb rfl d _).mp h
    exact (resolvesAt_succ_iff (Join.poll pa pb) _ _ hstep rfl d _).mpr
      (ih sb2 y htail)

/-- Once child `b` has completed with `y`, `join` just tracks `a`. -/
theorem Join.bDone {σa σb α β ε : Type} (pa : PollFn σa α ε)
    (pb : PollFn σb β ε) (y : β) (d : Nat) :
    ∀ (sa1 : σa) (x : α), resolvesAt pa sa1 d (Poll.ok x) →
      resolvesAt (Join.poll pa pb)
        (JoinState.running (MaybeDone.notYet sa1) (MaybeDone.doneV y) :
          JoinState σa σb α β) d (Poll.ok (x, y)) := by
  induction d with
  | zero =>
    intro sa1 x h
    obtain ⟨t1, xa, haa, hpa, hxa⟩ := obs_some pa sa1 0 _ h.2
    have ha' : (some sa1 : Option σa) = some t1 := haa
    obtain rfl := Option.some.inj ha'
    obtain ⟨sa2, ra2⟩ := xa
    simp only [] at hxa
    subst hxa
    refine ⟨fun k hk => absurd hk (by omega), ?_⟩
    rw [obs_zero]
    simp [Join.poll, Join.pollEv, MaybeDone.step, hpa]
  | succ d ih =>
    intro sa1 x h
    obtain ⟨t1, xa, haa, hpa, hxa⟩ :=
      obs_some pa sa1 0 Poll.notReady (h.1 0 (by omega))
    have ha' : (some sa1 : Option σa) = some t1 := haa
    obtain rfl := Option.some.inj ha'
    obtain ⟨sa2, ra2⟩ := xa
    simp only [] at hxa
    subst hxa
    have hstep : Join.poll pa pb
        (JoinState.running (MaybeDone.notYet sa1) (MaybeDone.doneV y) :
          JoinState σa σb α β) =
        some (JoinState.running (MaybeDone.notYet sa2) (MaybeDone.doneV y),
          Poll.notReady) := by
      simp [Join.poll, Join.pollEv, MaybeDone.step, hpa]
    have htail : resolvesAt pa sa2 d (Poll.ok x) :=
      (resolvesAt_succ_iff pa sa1 ⟨sa2, Poll.notReady⟩ hpa rfl d _).mp h
    exact (resolvesAt_succ_iff (Join.poll pa pb) _ _ hstep rfl d _).mpr
      (ih sa2 x htail)

theorem poll_of_obs_zero (q : PollFn σ α ε) (s : σ) (r : Poll α ε)
    (h : obs q s 0 = some r) : ∃ s2, q s = some (s2, r) := by
  obtain ⟨s1, x, ha, hq, hx⟩ := obs_some q s 0 r h
  have ha' : (some s : Option σ) = some s1 := ha
  obtain rfl := Option.some.inj ha'
  obtain ⟨s2, r2⟩ := x
  simp only [] at hx
  subst hx
  exact ⟨s2, hq⟩

/-- Claim C3: for `join(a, b)` over a shared error type: when both children
succeed with `x` and `y`, the join completes with `Ok (x, y)` at the later
of the two completion polls; when either child errs with `e` while its
sibling is still pending, the join completes with `Err e` at that same poll
and the sibling is cancelled by being dropped exactly once — the erroring
poll records exactly one drop of the sibling and no earlier poll records
any drop. -/
theorem claim3_join_ok_err_drop :
    (∀ (σa σb α β ε : Type) (pa : PollFn σa α ε) (pb : PollFn σb β ε)
      (sa : σa) (sb : σb) (na nb : Nat) (x : α) (y : β),
      resolvesAt pa sa na (Poll.ok x) → resolvesAt pb sb nb (Poll.ok y) →
      resolvesAt (Join.poll pa pb) (join sa sb) (max na nb)
        (Poll.ok (x, y))) ∧
    (∀ (σa σb α β ε : Type) (pa : PollFn σa α ε) (pb : PollFn σb β ε)
      (sa : σa) (sb : σb) (na : Nat) (e : ε),
      resolvesAt pa sa na (Poll.err e) →
      (∀ k, k < na → obs pb sb k = some Poll.notReady) →
      resolvesAt (Join.poll pa pb) (join sa sb : JoinState σa σb α β) na
        (Poll.err e) ∧
      (∀ k, k < na → Join.events pa pb (join sa sb) k = some []) ∧
      Join.events pa pb (join sa sb) na = some [JSide.right]) ∧
    (∀ (σa σb α β ε : Type) (pa : PollFn σa α ε) (pb : PollFn σb β ε)
      (sa : σa) (sb : σb) (nb : Nat) (e : ε),
      resolvesAt pb sb nb (Poll.err e) →
      (∀ k, k ≤ nb → obs pa sa k = some Poll.notReady) →
      resolvesAt (Join.poll pa pb) (join sa sb : JoinState σa σb α β) nb
        (Poll.err e) ∧
      (∀ k, k < nb → Join.events pa pb (join sa sb) k = some []) ∧
      Join.events pa pb (join sa sb) nb = some [JSide.left]) := by
  refine ⟨?_, ?_, ?_⟩
  · intro σa σb α β ε pa pb sa sb na nb x y ha hb
    rcases Nat.lt_trichotomy na nb with hlt | heq | hgt
    · obtain ⟨sa1, sb1, hA, hB, hJ, hPre⟩ :=
        Join.pending pa pb na sa sb ha.1 (fun k hk => hb.1 k (by omega))
      have hoa : obs pa sa1 0 = some (Poll.ok x) := by
        rw [← obs_at_of_advN pa na sa sa1 hA]; exact ha.2
      obtain ⟨ua, hpa1⟩ := poll_of_obs_zero pa sa1 _ hoa
      have hob : obs pb sb1 0 = some Poll.notReady := by
        rw [← obs_at_of_advN pb na sb sb1 hB]; exact hb.1 na hlt
      obtain ⟨sb2, hpb1⟩ := poll_of_obs_zero pb sb1 _ hob
      have hstep : Join.poll pa pb (join sa1 sb1 : JoinState σa σb α β) =
          some (JoinState.running (MaybeDone.doneV x) (MaybeDone.notYet sb2),
            Poll.notReady) := by
        simp [join, Join.poll, Join.pollEv, MaybeDone.step, hpa1, hpb1]
      have hadvJ : advN (Join.poll pa pb) (na + 1) (join sa sb) =
          some (JoinState.running (MaybeDone.doneV x)
            (MaybeDone.notYet sb2)) :=
        advN_snoc _ na _ _ _ hJ hstep
      have hadvB : advN pb (na + 1) sb = some sb2 :=
        advN_snoc pb na sb sb1 (sb2, Poll.notReady) hB hpb1
      have hbtail : resolvesAt pb sb2 (nb - (na + 1)) (Poll.ok y) := by
        constructor
        · intro k hk
          rw [← obs_advN pb (na + 1) k sb sb2 hadvB]
          exact hb.1 (na + 1 + k) (by omega)
        · rw [← obs_advN pb (na + 1) (nb - (na + 1)) sb sb2 hadvB,
            show na + 1 + (nb - (na + 1)) = nb by omega]
          exact hb.2
      have htail := Join.aDone pa pb x (nb - (na + 1)) sb2 y hbtail
      have hpre1 : ∀ k, k < na + 1 →
          obs (Join.poll pa pb) (join sa sb : JoinState σa σb α β) k =
            some Poll.notReady := by
        intro k hk
        rcases Nat.lt_or_ge k na with hkna | hkna
        · exact (hPre k hkna).1
        · have hkeq : k = na := by omega
          rw [hkeq, obs_at_of_advN _ na _ _ hJ, obs_zero, hstep]
          rfl
      have hres := resolvesAt_concat (Join.poll pa pb) (join sa sb) _
        (na + 1) (nb - (na + 1)) _ hpre1 hadvJ htail
      rw [show na + 1 + (nb - (na + 1)) = nb by omega] at hres
      rw [show max na nb = nb by omega]
      exact hres
    · subst heq
      obtain ⟨sa1, sb1, hA, hB, hJ, hPre⟩ :=
        Join.pending pa pb na sa sb ha.1 hb.1
      have hoa : obs pa sa1 0 = some (Poll.ok x) := by
        rw [← obs_at_of_advN pa na sa sa1 hA]; exact ha.2
      obtain ⟨ua, hpa1⟩ := poll_of_obs_zero pa sa1 _ hoa
      have hob : obs pb sb1 0 = some (Poll.ok y) := by
        rw [← obs_at_of_advN pb na sb sb1 hB]; exact hb.2
      obtain ⟨ub, hpb1⟩ := poll_of_obs_zero pb sb1 _ hob
      rw [Nat.max_self]
      refine ⟨fun k hk => (hPre k hk).1, ?_⟩
      rw [obs_at_of_advN _ na _ _ hJ, obs_zero]
      simp [join, Join.poll, Join.pollEv, MaybeDone.step, hpa1, hpb1]
    · obtain ⟨sa1, sb1, hA, hB, hJ, hPre⟩ :=
        Join.pending pa pb nb sa sb (fun k hk => ha.1 k (by omega)) hb.1
      have hoa : obs pa sa1 0 = some Poll.notReady := by
        rw [← obs_at_of_advN pa nb sa sa1 hA]; exact ha.1 nb hgt
      obtain ⟨sa2, hpa1⟩ := poll_of_obs_zero pa sa1 _ hoa
      have hob : obs pb sb1 0 = some (Poll.ok y) := by
        rw [← obs_at_of_advN pb nb sb sb1 hB]; exact hb.2
      obtain ⟨ub, hpb1⟩ := poll_of_obs_zero pb sb1 _ hob
      have hstep : Join.poll pa pb (join sa1 sb1 : JoinState σa σb α β) =
          some (JoinState.running (MaybeDone.notYet sa2) (MaybeDone.doneV y),
            Poll.notReady) := by
        simp [join, Join.poll, Join.pollEv, MaybeDone.step, hpa1, hpb1]
      have hadvJ : advN (Join.poll pa pb) (nb + 1) (join sa sb) =
          some (JoinState.running (MaybeDone.notYet sa2)
            (MaybeDone.doneV y)) :=
        advN_snoc _ nb _ _ _ hJ hstep
      have hadvA : advN pa (nb + 1) sa = some sa2 :=
        advN_snoc pa nb sa sa1 (sa2, Poll.notReady) hA hpa1
      have hatail : resolvesAt pa sa2 (na - (nb + 1)) (Poll.ok x) := by
        constructor
        · intro k hk
          rw [← obs_advN pa (nb + 1) k sa sa2 hadvA]
          exact ha.1 (nb + 1 + k) (by omega)
        · rw [← obs_advN pa (nb + 1) (na - (nb + 1)) sa sa2 hadvA,
            show nb + 1 + (na - (nb + 1)) = na by omega]
          exact ha.2
      have htail := Join.bDone pa pb y (na - (nb + 1)) sa2 x hatail
      have hpre1 : ∀ k, k < nb + 1 →
          obs (Join.poll pa pb) (join sa sb : JoinState σa σb α β) k =
            some Poll.notReady := by
        intro k hk
        rcases Nat.lt_or_ge k nb with hknb | hknb
        · exact (hPre k hknb).1
        · have hkeq : k = nb := by omega
          rw [hkeq, obs_at_of_advN _ nb _ _ hJ, obs_zero, hstep]
          rfl
      have hres := resolvesAt_concat (Join.poll pa pb) (join sa sb) _
        (nb + 1) (na - (nb + 1)) _ hpre1 hadvJ htail
      rw [show nb + 1 + (na - (nb + 1)) = na by omega] at hres
      rw [show max na nb = na by omega]
      exact hres
  · intro σa σb α β ε pa pb sa sb na e ha hb
    obtain ⟨sa1, sb1, hA, hB, hJ, hPre⟩ := Join.pending pa pb na sa sb ha.1 hb
    have hoa : obs pa sa1 0 = some (Poll.err e) := by
      rw [← obs_at_of_advN pa na sa sa1 hA]; exact ha.2
    obtain ⟨ua, hpa1⟩ := poll_of_obs_zero pa sa1 _ hoa
    have hpEv : Join.pollEv pa pb (join sa1 sb1 : JoinState σa σb α β) =
        some (JoinState.doneSt, Poll.err e, [JSide.right]) := by
      simp [join, Join.pollEv, MaybeDone.step, MaybeDone.dropEv, hpa1]
    refine ⟨⟨fun k hk => (hPre k hk).1, ?_⟩, fun k hk => (hPre k hk).2, ?_⟩
    · rw [obs_at_of_advN _ na _ _ hJ, obs_zero]
      simp [Join.poll, hpEv]
    · simp [Join.events, hJ, hpEv]
  · intro σa σb α β ε pa pb sa sb nb e hb ha
    obtain ⟨sa1, sb1, hA, hB, hJ, hPre⟩ :=
      Join.pending pa pb nb sa sb (fun k hk => ha k (by omega)) hb.1
    have hoa : obs pa sa1 0 = some Poll.notReady := by
      rw [← obs_at_of_advN pa nb sa sa1 hA]; exact ha nb (by omega)
    obtain ⟨sa2, hpa1⟩ := poll_of_obs_zero pa sa1 _ hoa
    have hob : obs pb sb1 0 = some (Poll.err e) := by
      rw [← obs_at_of_advN pb nb sb sb1 hB]; exact hb.2
    obtain ⟨ub, hpb1⟩ := poll_of_obs_zero pb sb1 _ hob
    have hpEv : Join.pollEv pa pb (join sa1 sb1 : JoinState σa σb α β) =
        some (JoinState.doneSt, Poll.err e, [JSide.left]) := by
      simp [join, Join.pollEv, MaybeDone.step, MaybeDone.dropEv, hpa1, hpb1]
    refine ⟨⟨fun k hk => (hPre k hk).1, ?_⟩, fun k hk => (hPre k hk).2, ?_⟩
    · rw [obs_at_of_advN _ nb _ _ hJ, obs_zero]
      simp [Join.poll, hpEv]
    · simp [Join.events, hJ, hpEv]

theorem claim3_join_witness :
    resolvesAt
      (Join.poll (Done.poll : PollFn (Done Nat Nat) Nat Nat)
        (Done.poll : PollFn (Done Nat Nat) Nat Nat))
      (join (done (Res.ok 1)) (done (Res.ok 2))) (max 0 0)
      (Poll.ok ((1 : Nat), (2 : Nat))) ∧
    (resolvesAt
      (Join.poll (Done.poll : PollFn (Done Nat Nat) Nat Nat)
        (Done.poll : PollFn (Done Nat Nat) Nat Nat))
      (join (done (Res.err 7)) (done (Res.ok 2))) 0 (Poll.err 7) ∧
      (∀ k, k < 0 → Join.events (Done.poll : PollFn (Done Nat Nat) Nat Nat)
        Done.poll (join (done (Res.err 7)) (done (Res.ok 2))) k = some []) ∧
      Join.events (Done.poll : PollFn (Done Nat Nat) Nat Nat) Done.poll
        (join (done (Res.err 7)) (done (Res.ok 2))) 0 = some [JSide.right]) ∧
    (resolvesAt
      (Join.poll (Receiver.poll : PollFn (ChannelState Nat Nat) (Option Nat) Nat)
        (Done.poll : PollFn (Done Nat Nat) Nat Nat))
      (join (channel Nat Nat) (done (Res.err 9) : Done Nat Nat)) 0
      (Poll.err 9) ∧
      (∀ k, k < 0 →
        Join.events
          (Receiver.poll : PollFn (ChannelState Nat Nat) (Option Nat) Nat)
          (Done.poll : PollFn (Done Nat Nat) Nat Nat)
          (join (channel Nat Nat) (done (Res.err 9) : Done Nat Nat)) k =
          some []) ∧
      Join.events
        (Receiver.poll : PollFn (ChannelState Nat Nat) (Option Nat) Nat)
        (Done.poll : PollFn (Done Nat Nat) Nat Nat)
        (join (channel Nat Nat) (done (Res.err 9) : Done Nat Nat)) 0 =
        some [JSide.left]) :=
  ⟨claim3_join_ok_err_drop.1 (Done Nat Nat) (Done Nat Nat) Nat Nat Nat
      Done.poll Done.poll (done (Res.ok 1)) (done (Res.ok 2)) 0 0 1 2
      ⟨by decide, by decide⟩ ⟨by decide, by decide⟩,
    claim3_join_ok_err_drop.2.1 (Done Nat Nat) (Done Nat Nat) Nat Nat Nat
      Done.poll Done.poll (done (Res.err 7)) (done (Res.ok 2)) 0 7
      ⟨by decide, by decide⟩ (fun k hk => absurd hk (by omega)),
    claim3_join_ok_err_drop.2.2 (ChannelState Nat Nat) (Done Nat Nat)
      (Option Nat) Nat Nat Receiver.poll Done.poll (channel Nat Nat)
      (done (Res.err 9)) 0 9 ⟨by decide, by decide⟩
      (fun k hk => by
        have hk0 : k = 0 := by omega
        subst hk0
        decide)⟩

end FuturesRs
